import Mathlib

/-!
Verification development for the dag-designer repository.

The Python sources are shallowly embedded as Lean definitions:

* Python runtime values that flow through the builder API are modelled by
  `PyVal` (strings, ints, bools, None, lists, dicts); Python `dict`s are
  association lists that keep insertion order, as CPython dicts do.
* Python exceptions are modelled by `PyErr`; each constructor corresponds to
  one `raise` site (or exception type) of the sources, carrying the data that
  the source interpolates into the message.
* `DAGBuilder` (src/dag_builder.py) keeps its state in `self.graph`, an
  `nx.DiGraph`; this is modelled by `Graph`: the node list (id with its
  `type`/`parameters` attributes, in insertion order) and the edge list.
  Methods that can raise return `Except PyErr Unit × Graph`, where the second
  component is the state of the graph when the method returns or raises.
* `function_registry` / `get_operation_function` come from
  src/function_registry.py, `resolve_dependencies` / `execute_node` from
  src/dependency_resolver.py.
* `nx.simple_cycles` is a library call; its observable use in `add_edge` is
  only the truthiness of the cycle list, i.e. whether the directed graph has a
  cycle.  This is embedded as `hasCycle`, an executable check that some edge
  (u, v) closes a directed path from v back to u, together with an inductive
  reachability predicate `Reach` and an equivalence proof.
-/

/-- A Python value as used for node parameters in the DAG builder.  Dicts are
association lists in insertion order (string keys only, which is all the
sources use). -/
inductive PyVal where
  | str (s : String)
  | int (n : Int)
  | bool (b : Bool)
  | none
  | list (xs : List PyVal)
  | dict (kvs : List (String × PyVal))

/-- A Python exception, one constructor per raise site / exception type met in
the embedded code.  `unsupportedNodeType` is the ValueError raised by
`get_operation_function`; `unsupportedNodeTypeWrapped` is the ValueError that
`DAGBuilder.add_node` wraps around it; `duplicateNode`, `invalidParameters`,
`nodeNotFound` ("One of the nodes in the edge does not exist."), `cycleError`
("Adding this edge would create a cycle.") and `graphCycle` ("The graph
contains a cycle, ...", from the resolver) are the remaining ValueErrors;
`missingParameters` is the ValueError of `execute_node` listing the missing
required parameter names; `keyError`/`typeError` are the builtin KeyError and
TypeError. -/
inductive PyErr where
  | unsupportedNodeType (node_type : String)
  | unsupportedNodeTypeWrapped (node_type : String)
  | duplicateNode (node_id : String)
  | invalidParameters (node_type : String)
  | keyError (key : String)
  | typeError
  | nodeNotFound
  | cycleError
  | missingParameters (node_id node_type : String) (missing : List String)
  | graphCycle
  deriving DecidableEq

/-- Python `==` on the values above (structural; the sources only ever compare
strings, so numeric cross-type equalities of CPython are not relied upon). -/
def PyVal.beq : PyVal → PyVal → Bool
  | .str a, .str b => a == b
  | .int a, .int b => a == b
  | .bool a, .bool b => a == b
  | .none, .none => true
  | .list as, .list bs => beqList as bs
  | .dict as, .dict bs => beqKVs as bs
  | _, _ => false
where
  /-- Elementwise equality of Python lists. -/
  beqList : List PyVal → List PyVal → Bool
    | [], [] => true
    | a :: as, b :: bs => PyVal.beq a b && beqList as bs
    | _, _ => false
  /-- Entrywise equality of Python dict items. -/
  beqKVs : List (String × PyVal) → List (String × PyVal) → Bool
    | [], [] => true
    | (ka, va) :: as, (kb, vb) :: bs => ka == kb && PyVal.beq va vb && beqKVs as bs
    | _, _ => false

/-- Python iteration `for x in v`: lists yield elements, dicts yield their
keys, strings yield 1-character strings; other values raise TypeError. -/
def pyIter : PyVal → Except PyErr (List PyVal)
  | .list xs => .ok xs
  | .dict kvs => .ok (kvs.map (fun kv => PyVal.str kv.1))
  | .str s => .ok (s.data.map (fun c => PyVal.str (String.mk [c])))
  | _ => .error .typeError

/-- Decides whether the character list `nee` occurs contiguously in `hay`. -/
def charsContain (hay nee : List Char) : Bool :=
  (List.range (hay.length + 1)).any (fun i => nee.isPrefixOf (hay.drop i))

/-- Python `k in v` for a string `k`: key membership for dicts, element
equality for lists, substring test for strings; TypeError otherwise. -/
def pyContainsStr (v : PyVal) (k : String) : Except PyErr Bool :=
  match v with
  | .dict kvs => .ok (kvs.any (fun kv => kv.1 == k))
  | .list xs => .ok (xs.any (fun x => PyVal.beq x (.str k)))
  | .str s => .ok (charsContain s.data k.data)
  | _ => .error .typeError

/-- Python `v[k]` for a string key `k`: dict lookup (KeyError when absent);
any other receiver raises TypeError. -/
def pySubscriptStr (v : PyVal) (k : String) : Except PyErr PyVal :=
  match v with
  | .dict kvs =>
      match kvs.find? (fun kv => kv.1 == k) with
      | some kv => .ok kv.2
      | Option.none => .error (.keyError k)
  | _ => .error .typeError

/-- Lookup in a Python dict given by its item list. -/
def dlookup (kvs : List (String × PyVal)) (k : String) : Option PyVal :=
  (kvs.find? (fun kv => kv.1 == k)).map (fun kv => kv.2)

/-- Key membership in a Python dict given by its item list. -/
def hasKey (kvs : List (String × PyVal)) (k : String) : Bool :=
  kvs.any (fun kv => kv.1 == k)

/-- Python dict assignment `d[k] = v`: overwrite in place (keeping the key's
position) when the key exists, append the new item otherwise. -/
def dictSet (kvs : List (String × PyVal)) (k : String) (v : PyVal) :
    List (String × PyVal) :=
  if hasKey kvs k then
    kvs.map (fun kv => if kv.1 == k then (k, v) else kv)
  else kvs ++ [(k, v)]

/-- Python dict subscript on an item list, raising KeyError when absent. -/
def pyDictGet (kvs : List (String × PyVal)) (k : String) : Except PyErr PyVal :=
  match dlookup kvs k with
  | some v => .ok v
  | Option.none => .error (.keyError k)

/-- The registry of src/function_registry.py, restricted to the data the
embedded code observes: each node type's ordered list of required parameter
names.  (The executable-unit component of each registry entry is modelled
separately by `runOperation`.) -/
def function_registry : List (String × List String) :=
  [("ADD", ["columns", "value"]),
   ("SMA", ["window_size", "column"]),
   ("ADX", ["high", "low", "close", "time_period"])]

/-- `get_operation_function` of src/function_registry.py: returns the registry
entry for the node type, raising ValueError ("Unsupported node type: ...")
when it is not registered. -/
def get_operation_function (node_type : String) : Except PyErr (List String) :=
  match function_registry.find? (fun kv => kv.1 == node_type) with
  | some kv => .ok kv.2
  | Option.none => .error (.unsupportedNodeType node_type)

/-- `adx_operation` of src/function_registry.py: reads the four price inputs
from the parameter dict (KeyError when absent, mirroring the subscripts) and
then invokes `talib.ADX`; the external numeric computation itself is outside
the embedded core and is treated as completing. -/
def adx_operation (parameters : List (String × PyVal)) : Except PyErr Unit := do
  let _ ← pyDictGet parameters "high"
  let _ ← pyDictGet parameters "low"
  let _ ← pyDictGet parameters "close"
  let _ ← pyDictGet parameters "time_period"
  pure ()

/-- The executable unit of a registry entry: `add_operation` and
`sma_operation` only log and return, `adx_operation` is above.  Unregistered
types are unreachable here because callers look the type up first. -/
def runOperation (node_type : String) (parameters : List (String × PyVal)) :
    Except PyErr Unit :=
  if node_type == "ADX" then adx_operation parameters else pure ()

/-- The attribute dict `{'type': ..., 'parameters': ...}` that
`DAGBuilder.add_node` stores on an `nx.DiGraph` node. -/
structure NodeData where
  type : String
  parameters : List (String × PyVal)

/-- The state of `DAGBuilder.graph` (an `nx.DiGraph`): nodes with their data,
in insertion order, and the directed edge list. -/
structure Graph where
  nodes : List (String × NodeData)
  edges : List (String × String)

/-- The freshly constructed builder (`DAGBuilder.__init__`): an empty directed
graph. -/
def Graph.empty : Graph := ⟨[], []⟩

/-- Python `node_id in self.graph`: node membership. -/
def hasNode (g : Graph) (node_id : String) : Bool :=
  g.nodes.any (fun nd => nd.1 == node_id)

/-- The node ids of the graph, in insertion order. -/
def nodeIds (g : Graph) : List String := g.nodes.map (fun nd => nd.1)

/-- `DAGBuilder._validate_parameters`: for node type "ADD" the parameters must
be a list of dicts, each holding a string under key "column" or a number under
key "value" (CPython `bool` is a subclass of `int`, so booleans pass the
`isinstance(..., (int, float))` check); every other node type is accepted
unconditionally. -/
def validate_parameters (node_type : String) (parameters : PyVal) : Bool :=
  if node_type == "ADD" then
    match parameters with
    | .list params =>
        (params.all (fun p => match p with | .dict _ => true | _ => false)) &&
        (params.all (fun p =>
          match p with
          | .dict kvs =>
              if hasKey kvs "column" then
                match dlookup kvs "column" with
                | some (.str _) => true
                | _ => false
              else if hasKey kvs "value" then
                match dlookup kvs "value" with
                | some (.int _) => true
                | some (.bool _) => true
                | _ => false
              else false
          | _ => true))
    | _ => false
  else true

/-- One step of the loop body of `DAGBuilder._convert_to_internal_parameters`:
`internal_params["columns"].append(param["column"])` first subscripts
`internal_params` with "columns" (KeyError when absent, which is always the
case given the initializer), then subscripts `param`; the value branch sets
`internal_params["value"]`. -/
def convertStep (internal : List (String × PyVal)) (param : PyVal) :
    Except PyErr (List (String × PyVal)) := do
  let hasCol ← pyContainsStr param "column"
  if hasCol then do
    let cols ← pyDictGet internal "columns"
    let cv ← pySubscriptStr param "column"
    match cols with
    | .list xs => pure (dictSet internal "columns" (.list (xs ++ [cv])))
    | _ => .error .typeError
  else do
    let hasVal ← pyContainsStr param "value"
    if hasVal then do
      let v ← pySubscriptStr param "value"
      pure (dictSet internal "value" v)
    else pure internal

/-- `DAGBuilder._convert_to_internal_parameters`: starts from the dict
`{"sources": []}` and folds the loop body over the iterated parameters. -/
def convert_to_internal_parameters (parameters : PyVal) :
    Except PyErr (List (String × PyVal)) := do
  let ps ← pyIter parameters
  List.foldlM convertStep [("sources", PyVal.list [])] ps

/-- `DAGBuilder.add_node`: registry check (wrapping the registry's ValueError),
duplicate check, parameter validation, conversion to the internal
representation, and only then the single mutation of the graph.  The second
component is the graph state when the call returns or raises. -/
def add_node (g : Graph) (node_id node_type : String) (parameters : PyVal) :
    Except PyErr Unit × Graph :=
  match get_operation_function node_type with
  | .error _ => (.error (.unsupportedNodeTypeWrapped node_type), g)
  | .ok _ =>
    if hasNode g node_id then (.error (.duplicateNode node_id), g)
    else if !(validate_parameters node_type parameters) then
      (.error (.invalidParameters node_type), g)
    else
      match convert_to_internal_parameters parameters with
      | .error e => (.error e, g)
      | .ok internal =>
          (.ok (), ⟨g.nodes ++ [(node_id, ⟨node_type, internal⟩)], g.edges⟩)

/-- `DAGBuilder.remove_node`: removes the node and all incident edges when it
exists, otherwise only logs (no error, no change). -/
def remove_node (g : Graph) (node_id : String) : Graph :=
  if hasNode g node_id then
    ⟨g.nodes.filter (fun nd => !(nd.1 == node_id)),
     g.edges.filter (fun e => !(e.1 == node_id) && !(e.2 == node_id))⟩
  else g

/-- One edge step of the executable reachability check: add the target of the
edge when its source is already collected and the target is not. -/
def expandStep (acc : List String) (e : String × String) : List String :=
  if acc.contains e.1 && !(acc.contains e.2) then acc ++ [e.2] else acc

/-- One saturation pass of the executable reachability check: walk the edge
list once, adding the target of every edge whose source is already collected. -/
def expandOnce (g : Graph) (S : List String) : List String :=
  g.edges.foldl expandStep S

/-- Iterated saturation passes. -/
def iterExpand (g : Graph) : Nat → List String → List String
  | 0, S => S
  | k + 1, S => iterExpand g k (expandOnce g S)

/-- All nodes reachable from `a` along directed edges: enough saturation
passes to reach a fixed point (one more pass than there are edges). -/
def reachFrom (g : Graph) (a : String) : List String :=
  iterExpand g (g.edges.length + 1) [a]

/-- Executable reachability: `b` is reachable from `a` (in zero or more
steps). -/
def reaches (g : Graph) (a b : String) : Bool := (reachFrom g a).contains b

/-- The observable content of `list(nx.simple_cycles(self.graph))` being
nonempty in `DAGBuilder.add_edge`: the directed graph has a cycle, i.e. some
edge (u, v) closes a directed path from v back to u. -/
def hasCycle (g : Graph) : Bool := g.edges.any (fun e => reaches g e.2 e.1)

/-- Reflexive-transitive reachability along the edge list, as an inductive
predicate (used to reason about `reaches` and `hasCycle`). -/
inductive Reach (g : Graph) : String → String → Prop where
  | refl (a : String) : Reach g a a
  | tail {a b c : String} : Reach g a b → (b, c) ∈ g.edges → Reach g a c

/-- `nx.DiGraph.add_edge` on existing nodes: inserts the edge unless it is
already present. -/
def insertEdge (g : Graph) (s t : String) : Graph :=
  if (s, t) ∈ g.edges then g else ⟨g.nodes, g.edges ++ [(s, t)]⟩

/-- `nx.DiGraph.remove_edge`: drops the edge (s, t) from the edge list. -/
def eraseEdge (g : Graph) (s t : String) : Graph :=
  ⟨g.nodes, g.edges.filter (fun e => !(e.1 == s && e.2 == t))⟩

/-- `DAGBuilder.add_edge`: endpoint existence check, tentative insertion,
full-graph cycle enumeration, and rollback of the insertion when a cycle is
found.  The second component is the graph state when the call returns or
raises. -/
def add_edge (g : Graph) (source_id target_id : String) :
    Except PyErr Unit × Graph :=
  if !(hasNode g source_id) || !(hasNode g target_id) then
    (.error .nodeNotFound, g)
  else
    let g' := insertEdge g source_id target_id
    if hasCycle g' then (.error .cycleError, eraseEdge g' source_id target_id)
    else (.ok (), g')

/-- Python `self.graph.has_edge(s, t)`. -/
def hasEdge (g : Graph) (s t : String) : Bool :=
  g.edges.any (fun e => e.1 == s && e.2 == t)

/-- `DAGBuilder.remove_edge`: removes the edge when present, otherwise only
logs (no error, no change). -/
def remove_edge (g : Graph) (s t : String) : Graph :=
  if hasEdge g s t then eraseEdge g s t else g

/-- `DAGBuilder._convert_from_internal_parameters`: iterates
`parameters["columns"]` (KeyError when the key is absent), then reads
`parameters["value"]` and appends it when it is not None. -/
def convert_from_internal_parameters (parameters : List (String × PyVal)) :
    Except PyErr (List PyVal) := do
  let cols ← pyDictGet parameters "columns"
  let colItems ← pyIter cols
  let ps := colItems.map (fun c => PyVal.dict [("column", c)])
  let v ← pyDictGet parameters "value"
  pure (if (match v with | .none => false | _ => true) then
          ps ++ [PyVal.dict [("value", v)]]
        else ps)

/-- One node entry of the exported document. -/
structure NodeDoc where
  id : String
  type : String
  parameters : List PyVal

/-- The persisted document built by `DAGBuilder.to_json` (the `json.dumps`
serialization of this document to text is external formatting and is not part
of the embedded core). -/
structure Doc where
  nodes : List NodeDoc
  edges : List (String × String)

/-- `DAGBuilder.to_json`: converts every node's internal parameters back to
the user-facing format and collects the node and edge lists. -/
def to_json (g : Graph) : Except PyErr Doc := do
  let nodes ← g.nodes.mapM (fun nd => do
    let ps ← convert_from_internal_parameters nd.2.parameters
    pure (NodeDoc.mk nd.1 nd.2.type ps))
  pure ⟨nodes, g.edges⟩

/-- The per-parameter conversion done by the list comprehension in
`DAGBuilder.load_from_file`: `{"column": p["column"]}` when "column" is a key
of `p`, else `{"value": p["value"]}` (KeyError when neither key exists). -/
def docParamConvert (p : PyVal) : Except PyErr PyVal := do
  let hasCol ← pyContainsStr p "column"
  if hasCol then do
    let c ← pySubscriptStr p "column"
    pure (PyVal.dict [("column", c)])
  else do
    let v ← pySubscriptStr p "value"
    pure (PyVal.dict [("value", v)])

/-- Replay of the node entries of a document through `add_node`, stopping at
the first error (the exception propagates out of `load_from_file`). -/
def loadNodes : Graph → List NodeDoc → Except PyErr Unit × Graph
  | g, [] => (.ok (), g)
  | g, nd :: rest =>
    match nd.parameters.mapM docParamConvert with
    | .error e => (.error e, g)
    | .ok conv =>
      match add_node g nd.id nd.type (.list conv) with
      | (.ok _, g') => loadNodes g' rest
      | (.error e, g') => (.error e, g')

/-- Replay of the edge entries of a document through `add_edge`, stopping at
the first error. -/
def loadEdges : Graph → List (String × String) → Except PyErr Unit × Graph
  | g, [] => (.ok (), g)
  | g, e :: rest =>
    match add_edge g e.1 e.2 with
    | (.ok _, g') => loadEdges g' rest
    | (.error err, g') => (.error err, g')

/-- `DAGBuilder.load_from_file` minus the file read and JSON text parsing:
clears the graph, then replays `add_node` for every document node and
`add_edge` for every document edge, in document order. -/
def load_from_doc (doc : Doc) : Except PyErr Unit × Graph :=
  match loadNodes Graph.empty doc.nodes with
  | (.ok _, g) => loadEdges g doc.edges
  | r => r

/-- The export/import round trip `Load(Save(G))`: `save_to_file` writes
exactly the document produced by `to_json`, and `load_from_file` parses it
back; composing the two (file transport elided) gives the reloaded graph, or
the first error raised along the way. -/
def roundTrip (g : Graph) : Except PyErr Graph :=
  match to_json g with
  | .error e => .error e
  | .ok doc =>
    match load_from_doc doc with
    | (.ok _, g') => .ok g'
    | (.error e, _) => .error e

/-- `execute_node` of src/dependency_resolver.py: looks the node type up in
the registry, computes the required parameters missing from the node's
parameter dict, raises the ValueError listing them when there are any, and
otherwise invokes the operation function. -/
def execute_node (node_data : NodeData) (node_id : String) :
    Except PyErr Unit :=
  match get_operation_function node_data.type with
  | .error e => .error e
  | .ok required_params =>
    let parameters := node_data.parameters
    let missing_params := required_params.filter (fun p => !(hasKey parameters p))
    if !(missing_params.isEmpty) then
      .error (.missingParameters node_id node_data.type missing_params)
    else runOperation node_data.type parameters

/-- `graph.in_degree(v)`: the number of edges into `v`. -/
def in_degree (g : Graph) (v : String) : Nat :=
  (g.edges.filter (fun e => e.2 == v)).length

/-- `graph.successors(u)`: the targets of the edges out of `u` (distinct when
the edge list has no duplicates, as graphs built through the API guarantee). -/
def successorsOf (g : Graph) (u : String) : List String :=
  (g.edges.filter (fun e => e.1 == u)).map (fun e => e.2)

/-- The successor loop of `resolve_dependencies` for one dequeued node:
decrement the in-degree counter of each successor in turn, collecting (in
order) those whose counter reaches zero, exactly as the source appends them
to the queue. -/
def processList : List String → (String → Int) → List String →
    (String → Int) × List String
  | [], indeg, newq => (indeg, newq)
  | s :: rest, indeg, newq =>
    let d := indeg s - 1
    processList rest (fun x => if x == s then d else indeg x)
      (if d == 0 then newq ++ [s] else newq)

/-- The inner loop of `resolve_dependencies` for one dequeued node: decrement
the in-degree counter of every successor, appending those that reach zero.
Returns the updated counter map and the newly enqueued nodes. -/
def processNode (g : Graph) (node : String) (indeg : String → Int) :
    (String → Int) × List String :=
  processList (successorsOf g node) indeg []

/-- The while-loop of `resolve_dependencies`, with explicit fuel: each
iteration dequeues one node, records it in the plan (the source appends the
corresponding delayed operation; we record the node id it wraps), and
processes its successors.  The fuel bounds the number of iterations; the
caller passes the node count, which suffices for every graph built through
the API (proved below), and on exhaustion the plan so far is returned to the
source's defensive visited-count check. -/
def kahnLoop (g : Graph) :
    Nat → List String → (String → Int) → List String → List String
  | 0, _, _, plan => plan
  | fuel + 1, queue, indeg, plan =>
    match queue with
    | [] => plan
    | node :: rest =>
      let p := processNode g node indeg
      kahnLoop g fuel (rest ++ p.2) p.1 (plan ++ [node])

/-- `resolve_dependencies` of src/dependency_resolver.py: Kahn's algorithm
with a FIFO queue seeded by the in-degree-zero nodes in insertion order,
followed by the defensive check that the number of distinct visited nodes
equals the node count (raising the cycle ValueError otherwise).  The input is
already a `Graph` (the builder's DiGraph), so the isinstance guard of the
source cannot fire. -/
def resolve_dependencies (g : Graph) : Except PyErr (List String) :=
  let indeg0 : String → Int := fun v => (in_degree g v : Int)
  let queue0 := (nodeIds g).filter (fun v => in_degree g v == 0)
  let plan := kahnLoop g (nodeIds g).length queue0 indeg0 []
  if !(plan.dedup.length == (nodeIds g).length) then .error .graphCycle
  else .ok plan

/-- The graphs accepted by the graph store: every state reachable from the
fresh builder through its mutation API, keeping only the successful mutating
calls (a failing call leaves the state it returns with, which the atomicity
results below show equals the previous state). -/
inductive Built : Graph → Prop where
  | empty : Built Graph.empty
  | addNode {g g' : Graph} {i t : String} {p : PyVal} :
      Built g → add_node g i t p = (.ok (), g') → Built g'
  | removeNode {g : Graph} {i : String} : Built g → Built (remove_node g i)
  | addEdge {g g' : Graph} {s t : String} :
      Built g → add_edge g s t = (.ok (), g') → Built g'
  | removeEdge {g : Graph} {s t : String} : Built g → Built (remove_edge g s t)

/-- Well-formedness that every graph built through the mutation API enjoys:
distinct node ids, distinct edges, edges between existing nodes, and no
directed cycle. -/
def GoodGraph (g : Graph) : Prop :=
  (nodeIds g).Nodup ∧ g.edges.Nodup ∧
  (∀ e ∈ g.edges, e.1 ∈ nodeIds g ∧ e.2 ∈ nodeIds g) ∧
  hasCycle g = false

/-- The number of edges into `v` whose source has not been processed yet
(processed nodes being those already placed in the plan). -/
def unprocessedInDeg (g : Graph) (plan : List String) (v : String) : Nat :=
  (g.edges.filter (fun e => e.2 == v && !(plan.contains e.1))).length

/-- The loop invariant of Kahn's algorithm in `resolve_dependencies`:
the plan and the queue hold distinct nodes of the graph, the in-degree
counters count the edges from unprocessed sources, a node is planned or
queued exactly when all its predecessors are planned, and the plan respects
every edge between planned nodes. -/
structure KahnInv (g : Graph) (queue plan : List String) (indeg : String → Int) :
    Prop where
  nodup : (plan ++ queue).Nodup
  plan_sub : ∀ x ∈ plan, x ∈ nodeIds g
  queue_sub : ∀ x ∈ queue, x ∈ nodeIds g
  indeg_eq : ∀ v, indeg v = (unprocessedInDeg g plan v : Int)
  covered : ∀ v ∈ nodeIds g,
    (v ∈ plan ∨ v ∈ queue) ↔ (∀ e ∈ g.edges, e.2 = v → e.1 ∈ plan)
  ordered : ∀ e ∈ g.edges, e.2 ∈ plan →
    e.1 ∈ plan ∧ List.indexOf e.1 plan < List.indexOf e.2 plan

/-! Basic bridge lemmas between the executable definitions and propositions. -/

theorem hasNode_iff {g : Graph} {v : String} :
    hasNode g v = true ↔ v ∈ nodeIds g := by
  simp [hasNode, nodeIds, List.any_eq_true]

theorem add_node_error_no_change {g : Graph} {i t : String} {p : PyVal}
    {e : PyErr} (h : (add_node g i t p).1 = .error e) :
    (add_node g i t p).2 = g := by
  unfold add_node at h ⊢
  cases hf : get_operation_function t with
  | error e0 => simp only [hf]
  | ok req =>
    simp only [hf] at h ⊢
    cases hn : hasNode g i with
    | true => simp [hn]
    | false =>
      simp only [hn] at h ⊢
      cases hv : validate_parameters t p with
      | false => simp [hv]
      | true =>
        simp only [hv] at h ⊢
        cases hc : convert_to_internal_parameters p with
        | error e1 => simp [hc]
        | ok internal => simp [hc] at h

theorem add_node_unregistered {g : Graph} {i t : String} {p : PyVal} {e : PyErr}
    (h : get_operation_function t = .error e) :
    add_node g i t p = (.error (.unsupportedNodeTypeWrapped t), g) := by
  unfold add_node
  simp only [h]

theorem errorBind {ε α β : Type} (e : ε) (f : α → Except ε β) :
    (Except.error e >>= f) = Except.error e := rfl

theorem okBind {ε α β : Type} (a : α) (f : α → Except ε β) :
    (Except.ok a >>= f) = f a := rfl

theorem purePyOk {α : Type} (a : α) : (pure a : Except PyErr α) = Except.ok a := rfl

theorem dlookup_eq_none_iff {kvs : List (String × PyVal)} {k : String} :
    dlookup kvs k = Option.none ↔ ∀ kv ∈ kvs, (kv.1 == k) = false := by
  simp [dlookup, Option.map_eq_none', List.find?_eq_none]

theorem dlookup_dictSet_none {kvs : List (String × PyVal)} {k k' : String}
    {v : PyVal} (hne : (k == k') = false)
    (h : dlookup kvs k' = Option.none) :
    dlookup (dictSet kvs k v) k' = Option.none := by
  rw [dlookup_eq_none_iff] at h ⊢
  intro kv hkv
  unfold dictSet at hkv
  by_cases hk : hasKey kvs k = true
  · rw [if_pos hk] at hkv
    obtain ⟨kv0, hkv0, heq⟩ := List.mem_map.mp hkv
    by_cases h0 : (kv0.1 == k) = true
    · rw [if_pos h0] at heq; subst heq; exact hne
    · rw [if_neg h0] at heq; subst heq; exact h kv0 hkv0
  · rw [if_neg hk] at hkv
    rcases List.mem_append.mp hkv with hin | hin
    · exact h kv hin
    · simp only [List.mem_singleton] at hin; subst hin; exact hne

theorem convertStep_no_columns {internal res : List (String × PyVal)}
    {p : PyVal} (h0 : dlookup internal "columns" = Option.none)
    (h : convertStep internal p = .ok res) :
    dlookup res "columns" = Option.none := by
  unfold convertStep at h
  cases hc : pyContainsStr p "column" with
  | error e => rw [hc, errorBind] at h; exact absurd h (by simp)
  | ok hasCol =>
    rw [hc, okBind] at h
    cases hasCol with
    | true =>
      simp only [if_true] at h
      unfold pyDictGet at h
      rw [h0] at h
      rw [errorBind] at h
      exact absurd h (by simp)
    | false =>
      simp only [Bool.false_eq_true, if_false] at h
      cases hv : pyContainsStr p "value" with
      | error e => rw [hv, errorBind] at h; exact absurd h (by simp)
      | ok hasVal =>
        rw [hv, okBind] at h
        cases hasVal with
        | true =>
          simp only [if_true] at h
          cases hs : pySubscriptStr p "value" with
          | error e => rw [hs, errorBind] at h; exact absurd h (by simp)
          | ok val =>
            rw [hs, okBind] at h
            rw [purePyOk] at h
            cases h
            exact dlookup_dictSet_none (by rfl) h0
        | false =>
          simp only [Bool.false_eq_true, if_false, purePyOk] at h
          cases h
          exact h0

theorem foldl_convert_no_columns :
    ∀ (ps : List PyVal) (internal res : List (String × PyVal)),
      dlookup internal "columns" = Option.none →
      List.foldlM convertStep internal ps = .ok res →
      dlookup res "columns" = Option.none := by
  intro ps
  induction ps with
  | nil =>
    intro internal res h0 h
    simp only [List.foldlM_nil, purePyOk] at h
    cases h; exact h0
  | cons p ps ih =>
    intro internal res h0 h
    rw [List.foldlM_cons] at h
    cases hstep : convertStep internal p with
    | error e => rw [hstep, errorBind] at h; exact absurd h (by simp)
    | ok internal' =>
      rw [hstep, okBind] at h
      exact ih internal' res (convertStep_no_columns h0 hstep) h

theorem convert_no_columns {p : PyVal} {internal : List (String × PyVal)}
    (h : convert_to_internal_parameters p = .ok internal) :
    dlookup internal "columns" = Option.none := by
  unfold convert_to_internal_parameters at h
  cases hi : pyIter p with
  | error e => rw [hi, errorBind] at h; exact absurd h (by simp)
  | ok ps =>
    rw [hi, okBind] at h
    exact foldl_convert_no_columns ps _ _ (by rfl) h

theorem add_node_ok_inv {g g' : Graph} {i t : String} {p : PyVal}
    (h : add_node g i t p = (.ok (), g')) :
    hasNode g i = false ∧ validate_parameters t p = true ∧
    ∃ internal, convert_to_internal_parameters p = .ok internal ∧
      g' = ⟨g.nodes ++ [(i, ⟨t, internal⟩)], g.edges⟩ := by
  unfold add_node at h
  cases hf : get_operation_function t with
  | error e0 => rw [hf] at h; exact absurd h (by simp)
  | ok req =>
    rw [hf] at h
    cases hn : hasNode g i with
    | true => simp [hn] at h
    | false =>
      simp only [hn, Bool.false_eq_true, if_false] at h
      cases hv : validate_parameters t p with
      | false => simp [hv] at h
      | true =>
        simp only [hv, Bool.not_true, Bool.false_eq_true, if_false] at h
        cases hc : convert_to_internal_parameters p with
        | error e1 => simp [hc] at h
        | ok internal =>
          rw [hc] at h
          refine ⟨rfl, rfl, internal, rfl, ?_⟩
          cases h
          rfl

/-! Lemmas about the executable reachability check and the cycle test. -/

theorem mem_foldl_expandStep_of_mem :
    ∀ (es : List (String × String)) (S : List String) (x : String),
      x ∈ S → x ∈ es.foldl expandStep S := by
  intro es
  induction es with
  | nil => intro S x hx; exact hx
  | cons e es ih =>
    intro S x hx
    apply ih
    unfold expandStep
    split
    · exact List.mem_append.mpr (Or.inl hx)
    · exact hx

theorem mem_foldl_expandStep_cases :
    ∀ (es : List (String × String)) (S : List String) (x : String),
      x ∈ es.foldl expandStep S → x ∈ S ∨ x ∈ es.map Prod.snd := by
  intro es
  induction es with
  | nil => intro S x hx; exact Or.inl hx
  | cons e es ih =>
    intro S x hx
    rcases ih (expandStep S e) x hx with h | h
    · unfold expandStep at h
      split at h
      · rcases List.mem_append.mp h with h' | h'
        · exact Or.inl h'
        · right
          simp only [List.mem_singleton] at h'
          subst h'
          exact List.mem_map.mpr ⟨e, List.mem_cons_self .., rfl⟩
      · exact Or.inl h
    · right
      obtain ⟨e', he', rfl⟩ := List.mem_map.mp h
      exact List.mem_map.mpr ⟨e', List.mem_cons_of_mem _ he', rfl⟩

theorem foldl_expandStep_nodup :
    ∀ (es : List (String × String)) (S : List String),
      S.Nodup → (es.foldl expandStep S).Nodup := by
  intro es
  induction es with
  | nil => intro S h; exact h
  | cons e es ih =>
    intro S h
    apply ih
    unfold expandStep
    split
    · next hcond =>
        have hnot : e.2 ∉ S := by
          intro hmem
          simp [hmem] at hcond
        simp [List.nodup_append, h, hnot]
    · exact h

theorem expandStep_eq (S : List String) (e : String × String) :
    expandStep S e =
      S ++ (if (S.contains e.1 && !(S.contains e.2)) = true then [e.2] else []) := by
  unfold expandStep
  split
  · rfl
  · exact (List.append_nil S).symm

theorem foldl_expandStep_struct :
    ∀ (es : List (String × String)) (S : List String),
      ∃ extra, es.foldl expandStep S = S ++ extra := by
  intro es
  induction es with
  | nil => intro S; exact ⟨[], (List.append_nil S).symm⟩
  | cons e es ih =>
    intro S
    rw [List.foldl_cons, expandStep_eq]
    obtain ⟨extra, hex⟩ :=
      ih (S ++ if (S.contains e.1 && !(S.contains e.2)) = true then [e.2] else [])
    refine ⟨(if (S.contains e.1 && !(S.contains e.2)) = true then [e.2] else []) ++
      extra, ?_⟩
    rw [hex, List.append_assoc]

theorem foldl_expandStep_edge :
    ∀ (es : List (String × String)) (S : List String) (u v : String),
      (u, v) ∈ es → u ∈ S → v ∈ es.foldl expandStep S := by
  intro es
  induction es with
  | nil => intro S u v h; exact absurd h (List.not_mem_nil _)
  | cons e es ih =>
    intro S u v hmem hu
    rcases List.mem_cons.mp hmem with heq | hin
    · subst heq
      have hstep : v ∈ expandStep S (u, v) := by
        rw [expandStep_eq]
        by_cases hv : v ∈ S
        · exact List.mem_append.mpr (Or.inl hv)
        · refine List.mem_append.mpr (Or.inr ?_)
          rw [if_pos (by simp [hu, hv])]
          simp
      exact mem_foldl_expandStep_of_mem es (expandStep S (u, v)) v hstep
    · have hstep : u ∈ expandStep S e := by
        rw [expandStep_eq]
        exact List.mem_append.mpr (Or.inl hu)
      exact ih (expandStep S e) u v hin hstep

theorem foldl_expandStep_reach (g : Graph) (a : String) :
    ∀ (es : List (String × String)) (S : List String),
      (∀ e ∈ es, e ∈ g.edges) → (∀ x ∈ S, Reach g a x) →
      ∀ x ∈ es.foldl expandStep S, Reach g a x := by
  intro es
  induction es with
  | nil => intro S _ hS x hx; exact hS x hx
  | cons e es ih =>
    intro S hes hS x hx
    refine ih (expandStep S e) (fun e' he' => hes e' (List.mem_cons_of_mem _ he')) ?_ x hx
    intro y hy
    unfold expandStep at hy
    split at hy
    · next hcond =>
        rcases List.mem_append.mp hy with h' | h'
        · exact hS y h'
        · simp only [List.mem_singleton] at h'
          subst h'
          have h1 : e.1 ∈ S := by
            have := hcond
            simp only [Bool.and_eq_true] at this
            simpa using this.1
          have hedge : (e.1, e.2) ∈ g.edges := by
            have := hes e (List.mem_cons_self ..)
            simpa using this
          exact Reach.tail (hS e.1 h1) hedge
    · exact hS y hy

theorem iterExpand_succ_comm (g : Graph) :
    ∀ (k : Nat) (S : List String),
      iterExpand g (k + 1) S = expandOnce g (iterExpand g k S) := by
  intro k
  induction k with
  | zero => intro S; rfl
  | succ k ih =>
    intro S
    show iterExpand g (k + 1) (expandOnce g S) = _
    rw [ih (expandOnce g S)]
    rfl

theorem mem_iterExpand_of_mem {g : Graph} :
    ∀ (k : Nat) (S : List String) (x : String), x ∈ S → x ∈ iterExpand g k S := by
  intro k
  induction k with
  | zero => intro S x hx; exact hx
  | succ k ih =>
    intro S x hx
    exact ih (expandOnce g S) x (mem_foldl_expandStep_of_mem _ _ _ hx)

theorem iterExpand_nodup {g : Graph} :
    ∀ (k : Nat) (S : List String), S.Nodup → (iterExpand g k S).Nodup := by
  intro k
  induction k with
  | zero => intro S h; exact h
  | succ k ih => intro S h; exact ih _ (foldl_expandStep_nodup _ _ h)

theorem iterExpand_cases {g : Graph} :
    ∀ (k : Nat) (S : List String) (x : String),
      x ∈ iterExpand g k S → x ∈ S ∨ x ∈ g.edges.map Prod.snd := by
  intro k
  induction k with
  | zero => intro S x hx; exact Or.inl hx
  | succ k ih =>
    intro S x hx
    rcases ih (expandOnce g S) x hx with h | h
    · exact mem_foldl_expandStep_cases _ _ _ h
    · exact Or.inr h

theorem iterExpand_reach {g : Graph} {a : String} :
    ∀ (k : Nat) (S : List String), (∀ x ∈ S, Reach g a x) →
      ∀ x ∈ iterExpand g k S, Reach g a x := by
  intro k
  induction k with
  | zero => intro S hS x hx; exact hS x hx
  | succ k ih =>
    intro S hS x hx
    exact ih (expandOnce g S) (foldl_expandStep_reach g a g.edges S (fun _ h => h) hS) x hx

theorem expandOnce_growth (g : Graph) (S : List String) :
    expandOnce g S = S ∨ S.length < (expandOnce g S).length := by
  obtain ⟨extra, hex⟩ := foldl_expandStep_struct g.edges S
  cases extra with
  | nil => left; rw [show expandOnce g S = g.edges.foldl expandStep S from rfl,
      hex, List.append_nil]
  | cons x xs =>
    right
    rw [show expandOnce g S = g.edges.foldl expandStep S from rfl, hex]
    simp

theorem iterExpand_of_fix {g : Graph} {S : List String}
    (h : expandOnce g S = S) : ∀ k, iterExpand g k S = S := by
  intro k
  induction k with
  | zero => rfl
  | succ k ih => rw [iterExpand_succ_comm, ih, h]

theorem iter_progress (g : Graph) (S : List String) :
    ∀ k : Nat, expandOnce g (iterExpand g k S) = iterExpand g k S ∨
      S.length + k ≤ (iterExpand g k S).length := by
  intro k
  induction k with
  | zero => right; simp [iterExpand]
  | succ k ih =>
    rcases ih with hfix | hlen
    · left
      rw [iterExpand_succ_comm, hfix, hfix]
    · rcases expandOnce_growth g (iterExpand g k S) with hfix | hlt
      · left
        rw [iterExpand_succ_comm, hfix, hfix]
      · right
        rw [iterExpand_succ_comm]
        omega

theorem reachFrom_fix (g : Graph) (a : String) :
    expandOnce g (reachFrom g a) = reachFrom g a := by
  rcases iter_progress g [a] (g.edges.length + 1) with h | h
  · exact h
  · exfalso
    have hnd : (iterExpand g (g.edges.length + 1) [a]).Nodup :=
      iterExpand_nodup _ _ (by simp)
    have hsub : (iterExpand g (g.edges.length + 1) [a]).toFinset ⊆
        (a :: g.edges.map Prod.snd).toFinset := by
      intro x hx
      rw [List.mem_toFinset] at hx ⊢
      rcases iterExpand_cases _ _ _ hx with h' | h'
      · simp only [List.mem_singleton] at h'
        exact h' ▸ List.mem_cons_self ..
      · exact List.mem_cons_of_mem _ h'
    have hlen : (iterExpand g (g.edges.length + 1) [a]).length ≤
        (a :: g.edges.map Prod.snd).length := by
      calc (iterExpand g (g.edges.length + 1) [a]).length
          = (iterExpand g (g.edges.length + 1) [a]).toFinset.card :=
            (List.toFinset_card_of_nodup hnd).symm
        _ ≤ (a :: g.edges.map Prod.snd).toFinset.card := Finset.card_le_card hsub
        _ ≤ (a :: g.edges.map Prod.snd).length := List.toFinset_card_le _
    simp only [List.length_cons, List.length_map, List.length_singleton] at h hlen
    omega

theorem reachFrom_closed {g : Graph} {a b c : String}
    (hb : b ∈ reachFrom g a) (he : (b, c) ∈ g.edges) : c ∈ reachFrom g a := by
  have h := foldl_expandStep_edge g.edges (reachFrom g a) b c he hb
  rw [show g.edges.foldl expandStep (reachFrom g a) =
    expandOnce g (reachFrom g a) from rfl, reachFrom_fix] at h
  exact h

theorem reach_mem_reachFrom {g : Graph} {a b : String} (h : Reach g a b) :
    b ∈ reachFrom g a := by
  induction h with
  | refl => exact mem_iterExpand_of_mem _ _ _ (by simp)
  | tail h1 he ih => exact reachFrom_closed ih he

theorem mem_reachFrom_reach {g : Graph} {a b : String}
    (h : b ∈ reachFrom g a) : Reach g a b := by
  refine iterExpand_reach _ [a] ?_ b h
  intro x hx
  simp only [List.mem_singleton] at hx
  subst hx
  exact Reach.refl x

theorem reaches_iff {g : Graph} {a b : String} :
    reaches g a b = true ↔ Reach g a b := by
  unfold reaches
  constructor
  · intro h
    exact mem_reachFrom_reach (by simpa using h)
  · intro h
    simpa using reach_mem_reachFrom h

theorem reach_trans {g : Graph} {a b c : String}
    (h1 : Reach g a b) (h2 : Reach g b c) : Reach g a c := by
  induction h2 with
  | refl => exact h1
  | tail h he ih => exact Reach.tail ih he

theorem reach_head {g : Graph} {a b c : String}
    (he : (a, b) ∈ g.edges) (h : Reach g b c) : Reach g a c :=
  reach_trans (Reach.tail (Reach.refl a) he) h

theorem reach_mono {g g' : Graph} {a b : String}
    (hsub : ∀ e ∈ g.edges, e ∈ g'.edges) (h : Reach g a b) : Reach g' a b := by
  induction h with
  | refl => exact Reach.refl _
  | tail h he ih => exact Reach.tail ih (hsub _ he)

theorem hasCycle_iff {g : Graph} :
    hasCycle g = true ↔ ∃ e ∈ g.edges, Reach g e.2 e.1 := by
  unfold hasCycle
  rw [List.any_eq_true]
  constructor
  · rintro ⟨e, he, hr⟩
    exact ⟨e, he, reaches_iff.mp hr⟩
  · rintro ⟨e, he, hr⟩
    exact ⟨e, he, reaches_iff.mpr hr⟩

theorem hasCycle_false_mono {g g' : Graph}
    (hsub : ∀ e ∈ g'.edges, e ∈ g.edges) (h : hasCycle g = false) :
    hasCycle g' = false := by
  cases hc : hasCycle g' with
  | false => rfl
  | true =>
    exfalso
    obtain ⟨e, he, hr⟩ := hasCycle_iff.mp hc
    have : hasCycle g = true :=
      hasCycle_iff.mpr ⟨e, hsub e he, reach_mono hsub hr⟩
    rw [this] at h
    exact absurd h (by simp)

theorem reach_append_case {g : Graph} {s t a b : String}
    (h : Reach ⟨g.nodes, g.edges ++ [(s, t)]⟩ a b) :
    Reach g a b ∨
      (Reach g a s ∧ Reach ⟨g.nodes, g.edges ++ [(s, t)]⟩ t b) := by
  induction h with
  | refl => exact Or.inl (Reach.refl _)
  | tail h1 he ih =>
    rcases List.mem_append.mp he with he' | he'
    · rcases ih with h' | ⟨h1', h2'⟩
      · exact Or.inl (Reach.tail h' he')
      · exact Or.inr ⟨h1', Reach.tail h2' (List.mem_append.mpr (Or.inl he'))⟩
    · simp only [List.mem_singleton] at he'
      injection he' with hb hc
      subst hb
      subst hc
      rcases ih with h' | ⟨h1', _⟩
      · exact Or.inr ⟨h', Reach.refl _⟩
      · exact Or.inr ⟨h1', Reach.refl _⟩

theorem hasCycle_insert_iff {g : Graph} {s t : String}
    (hg : hasCycle g = false) :
    hasCycle (insertEdge g s t) = true ↔ Reach g t s := by
  unfold insertEdge
  by_cases hmem : (s, t) ∈ g.edges
  · rw [if_pos hmem]
    constructor
    · intro h
      rw [h] at hg
      exact absurd hg (by simp)
    · intro h
      exfalso
      have : hasCycle g = true := hasCycle_iff.mpr ⟨(s, t), hmem, h⟩
      rw [this] at hg
      exact absurd hg (by simp)
  · rw [if_neg hmem]
    constructor
    · intro h
      obtain ⟨e, he, hr⟩ := hasCycle_iff.mp h
      rcases List.mem_append.mp he with he' | he'
      · rcases reach_append_case hr with h' | ⟨h1', h2'⟩
        · exfalso
          have : hasCycle g = true := hasCycle_iff.mpr ⟨e, he', h'⟩
          rw [this] at hg
          exact absurd hg (by simp)
        · rcases reach_append_case h2' with h'' | ⟨h1'', _⟩
          · have hte2 : Reach g t e.2 := Reach.tail h'' (by simpa using he')
            exact reach_trans hte2 h1'
          · exact h1''
      · simp only [List.mem_singleton] at he'
        subst he'
        rcases reach_append_case hr with h' | ⟨h1', _⟩
        · exact h'
        · exact h1'
    · intro h
      refine hasCycle_iff.mpr ⟨(s, t), List.mem_append.mpr (Or.inr (by simp)), ?_⟩
      exact reach_mono (fun e he => List.mem_append.mpr (Or.inl he)) h

theorem hasCycle_of_preds (g : Graph) (S : List String) (hne : S ≠ [])
    (h : ∀ v ∈ S, ∃ u, u ∈ S ∧ (u, v) ∈ g.edges) : hasCycle g = true := by
  classical
  obtain ⟨v0, hv0⟩ : ∃ v, v ∈ S := by
    cases S with
    | nil => exact absurd rfl hne
    | cons a l => exact ⟨a, List.mem_cons_self ..⟩
  let T := S.toFinset
  let pick : {x // x ∈ T} → {x // x ∈ T} := fun x =>
    ⟨(h x.1 (List.mem_toFinset.mp x.2)).choose,
     List.mem_toFinset.mpr (h x.1 (List.mem_toFinset.mp x.2)).choose_spec.1⟩
  have hpick : ∀ x : {x // x ∈ T}, ((pick x).1, x.1) ∈ g.edges := fun x =>
    (h x.1 (List.mem_toFinset.mp x.2)).choose_spec.2
  let seq : Nat → {x // x ∈ T} := fun n => pick^[n] ⟨v0, List.mem_toFinset.mpr hv0⟩
  have hseq_succ : ∀ n, seq (n + 1) = pick (seq n) := fun n =>
    Function.iterate_succ_apply' pick n _
  have hreach : ∀ i j, i ≤ j → Reach g (seq j).1 (seq i).1 := by
    intro i j hij
    induction j, hij using Nat.le_induction with
    | base => exact Reach.refl _
    | succ n hmn ih =>
      rw [hseq_succ n]
      exact reach_head (hpick (seq n)) ih
  have main : ∀ a b : Nat, a < b → seq a = seq b → hasCycle g = true := by
    intro a b hab hseq
    refine hasCycle_iff.mpr ⟨((pick (seq a)).1, (seq a).1), hpick (seq a), ?_⟩
    show Reach g (seq a).1 (pick (seq a)).1
    rw [← hseq_succ a, hseq]
    exact hreach (a + 1) b hab
  have hcard : Fintype.card {x // x ∈ T} < Fintype.card (Fin (T.card + 1)) := by
    rw [Fintype.card_coe, Fintype.card_fin]
    omega
  obtain ⟨i, j, hij, heq⟩ := Fintype.exists_ne_map_eq_of_card_lt
    (fun n : Fin (T.card + 1) => seq n.1) hcard
  rcases lt_trichotomy i.1 j.1 with h' | h' | h'
  · exact main i.1 j.1 h' heq
  · exact absurd (Fin.ext h') hij
  · exact main j.1 i.1 h' heq.symm

theorem iterExpand_nodes_irrel (n1 n2 : List (String × NodeData))
    (E : List (String × String)) :
    ∀ (k : Nat) (S : List String),
      iterExpand ⟨n1, E⟩ k S = iterExpand ⟨n2, E⟩ k S := by
  intro k
  induction k with
  | zero => intro S; rfl
  | succ k ih =>
    intro S
    show iterExpand ⟨n1, E⟩ k (E.foldl expandStep S) = _
    rw [ih (E.foldl expandStep S)]
    rfl

theorem reaches_nodes_irrel (n1 n2 : List (String × NodeData))
    (E : List (String × String)) (a b : String) :
    reaches ⟨n1, E⟩ a b = reaches ⟨n2, E⟩ a b := by
  unfold reaches reachFrom
  rw [iterExpand_nodes_irrel n1 n2 E]

theorem hasCycle_nodes_irrel (n1 n2 : List (String × NodeData))
    (E : List (String × String)) :
    hasCycle ⟨n1, E⟩ = hasCycle ⟨n2, E⟩ := by
  unfold hasCycle
  congr 1
  funext e
  exact reaches_nodes_irrel n1 n2 E e.2 e.1

theorem add_edge_not_found {g : Graph} {s t : String}
    (h : hasNode g s = false ∨ hasNode g t = false) :
    add_edge g s t = (.error .nodeNotFound, g) := by
  unfold add_edge
  rcases h with h | h <;> simp [h]

theorem add_edge_cycle {g : Graph} {s t : String}
    (hs : hasNode g s = true) (ht : hasNode g t = true)
    (hg : hasCycle g = false) (hc : hasCycle (insertEdge g s t) = true) :
    add_edge g s t = (.error .cycleError, g) := by
  have hmem : (s, t) ∉ g.edges := by
    intro hmem
    unfold insertEdge at hc
    rw [if_pos hmem] at hc
    rw [hc] at hg
    exact absurd hg (by simp)
  have hins : insertEdge g s t = ⟨g.nodes, g.edges ++ [(s, t)]⟩ := by
    unfold insertEdge
    rw [if_neg hmem]
  have herase : eraseEdge (insertEdge g s t) s t = g := by
    rw [hins]
    unfold eraseEdge
    simp only
    rw [List.filter_append]
    have h1 : (g.edges.filter fun e => !(e.1 == s && e.2 == t)) = g.edges := by
      rw [List.filter_eq_self]
      intro e he
      simp only [Bool.not_eq_true']
      cases hcase : (e.1 == s && e.2 == t) with
      | false => rfl
      | true =>
        exfalso
        simp only [Bool.and_eq_true, beq_iff_eq] at hcase
        have : e = (s, t) := Prod.ext hcase.1 hcase.2
        exact hmem (this ▸ he)
    have h2 : ([(s, t)].filter fun e => !(e.1 == s && e.2 == t)) =
        ([] : List (String × String)) := by simp
    rw [h1, h2, List.append_nil]
  unfold add_edge
  simp only [hs, ht, Bool.not_true, Bool.or_self, Bool.false_eq_true, if_false, hc,
    if_true]
  rw [herase]

theorem add_edge_success {g : Graph} {s t : String}
    (hs : hasNode g s = true) (ht : hasNode g t = true)
    (hc : hasCycle (insertEdge g s t) = false) :
    add_edge g s t = (.ok (), insertEdge g s t) := by
  unfold add_edge
  simp only [hs, ht, Bool.not_true, Bool.or_self, Bool.false_eq_true, if_false, hc,
    if_true]

theorem add_edge_ok_inv {g g' : Graph} {s t : String}
    (h : add_edge g s t = (.ok (), g')) :
    hasNode g s = true ∧ hasNode g t = true ∧
    hasCycle (insertEdge g s t) = false ∧ g' = insertEdge g s t := by
  unfold add_edge at h
  cases hs : hasNode g s with
  | false => simp [hs] at h
  | true =>
    cases ht : hasNode g t with
    | false => simp [hs, ht] at h
    | true =>
      simp only [hs, ht, Bool.not_true, Bool.or_self, Bool.false_eq_true,
        if_false] at h
      cases hc : hasCycle (insertEdge g s t) with
      | true => simp [hc] at h
      | false =>
        simp only [hc, Bool.false_eq_true, if_false, Prod.mk.injEq] at h
        exact ⟨rfl, rfl, rfl, h.2.symm⟩

theorem nodes_insertEdge (g : Graph) (s t : String) :
    (insertEdge g s t).nodes = g.nodes := by
  unfold insertEdge
  split <;> rfl

theorem nodeIds_insertEdge (g : Graph) (s t : String) :
    nodeIds (insertEdge g s t) = nodeIds g := by
  unfold nodeIds
  rw [nodes_insertEdge]

theorem mem_edges_insertEdge {g : Graph} {s t : String} {e : String × String} :
    e ∈ (insertEdge g s t).edges ↔ e ∈ g.edges ∨ e = (s, t) := by
  unfold insertEdge
  split
  · next hmem =>
      constructor
      · exact fun h => Or.inl h
      · rintro (h | rfl)
        · exact h
        · exact hmem
  · simp [List.mem_append]

theorem hasNode_false_not_mem {g : Graph} {i : String}
    (h : hasNode g i = false) : i ∉ nodeIds g := by
  intro hmem
  rw [hasNode_iff.mpr hmem] at h
  exact absurd h (by simp)

theorem built_invariant {g : Graph} (hb : Built g) :
    GoodGraph g ∧ ∀ nd ∈ g.nodes, dlookup nd.2.parameters "columns" = Option.none := by
  induction hb with
  | empty =>
    refine ⟨⟨List.nodup_nil, List.nodup_nil, ?_, rfl⟩, ?_⟩
    · intro e he
      exact absurd he (List.not_mem_nil e)
    · intro nd hnd
      exact absurd hnd (List.not_mem_nil nd)
  | @addNode g0 g' i t p hb hok ih =>
    obtain ⟨hnod, hval, internal, hconv, rfl⟩ := add_node_ok_inv hok
    obtain ⟨⟨hnd, hed, hwf, hcyc⟩, hcols⟩ := ih
    have hids : nodeIds ⟨g0.nodes ++ [(i, ⟨t, internal⟩)], g0.edges⟩ =
        nodeIds g0 ++ [i] := by
      simp [nodeIds]
    have hi : i ∉ nodeIds g0 := hasNode_false_not_mem hnod
    refine ⟨⟨?_, hed, ?_, ?_⟩, ?_⟩
    · rw [hids]
      simp [List.nodup_append, hnd, List.disjoint_singleton, hi]
    · intro e he
      obtain ⟨h1, h2⟩ := hwf e he
      rw [hids]
      exact ⟨List.mem_append.mpr (Or.inl h1), List.mem_append.mpr (Or.inl h2)⟩
    · have : hasCycle ⟨g0.nodes ++ [(i, ⟨t, internal⟩)], g0.edges⟩ =
          hasCycle ⟨g0.nodes, g0.edges⟩ :=
        hasCycle_nodes_irrel _ _ _
      rw [this]
      exact hcyc
    · intro nd hnd'
      rcases List.mem_append.mp hnd' with h | h
      · exact hcols nd h
      · simp only [List.mem_singleton] at h
        subst h
        exact convert_no_columns hconv
  | @removeNode g0 i hb ih =>
    obtain ⟨⟨hnd, hed, hwf, hcyc⟩, hcols⟩ := ih
    unfold remove_node
    split
    · refine ⟨⟨?_, List.Nodup.filter _ hed, ?_, ?_⟩, ?_⟩
      · exact List.Nodup.sublist (List.Sublist.map _ (List.filter_sublist _)) hnd
      · intro e he
        simp only [List.mem_filter, Bool.and_eq_true, Bool.not_eq_true',
          beq_eq_false_iff_ne] at he
        obtain ⟨hmem, hne1, hne2⟩ := he
        obtain ⟨h1, h2⟩ := hwf e hmem
        constructor
        · simp only [nodeIds, List.mem_map] at h1 ⊢
          obtain ⟨nd, hndm, hfst⟩ := h1
          exact ⟨nd, List.mem_filter.mpr ⟨hndm, by simp [hfst, hne1]⟩, hfst⟩
        · simp only [nodeIds, List.mem_map] at h2 ⊢
          obtain ⟨nd, hndm, hfst⟩ := h2
          exact ⟨nd, List.mem_filter.mpr ⟨hndm, by simp [hfst, hne2]⟩, hfst⟩
      · refine hasCycle_false_mono ?_ hcyc
        intro e he
        exact (List.mem_filter.mp he).1
      · intro nd hnd'
        exact hcols nd (List.mem_filter.mp hnd').1
    · exact ⟨⟨hnd, hed, hwf, hcyc⟩, hcols⟩
  | @addEdge g0 g' s t hb hok ih =>
    obtain ⟨hs, ht, hcyc', rfl⟩ := add_edge_ok_inv hok
    obtain ⟨⟨hnd, hed, hwf, hcyc⟩, hcols⟩ := ih
    refine ⟨⟨?_, ?_, ?_, hcyc'⟩, ?_⟩
    · rw [nodeIds_insertEdge]
      exact hnd
    · unfold insertEdge
      split
      · exact hed
      · next hmem => simp [List.nodup_append, hed, List.disjoint_singleton, hmem]
    · intro e he
      rw [nodeIds_insertEdge]
      rcases mem_edges_insertEdge.mp he with h | rfl
      · exact hwf e h
      · exact ⟨hasNode_iff.mp hs, hasNode_iff.mp ht⟩
    · intro nd hnd'
      rw [nodes_insertEdge] at hnd'
      exact hcols nd hnd'
  | @removeEdge g0 s t hb ih =>
    obtain ⟨⟨hnd, hed, hwf, hcyc⟩, hcols⟩ := ih
    unfold remove_edge
    split
    · refine ⟨⟨hnd, List.Nodup.filter _ hed, ?_, ?_⟩, hcols⟩
      · intro e he
        exact hwf e (List.mem_filter.mp he).1
      · refine hasCycle_false_mono ?_ hcyc
        intro e he
        exact (List.mem_filter.mp he).1
    · exact ⟨⟨hnd, hed, hwf, hcyc⟩, hcols⟩

theorem to_json_error {g : Graph}
    (hcols : ∀ nd ∈ g.nodes, dlookup nd.2.parameters "columns" = Option.none)
    (hne : g.nodes ≠ []) :
    to_json g = .error (.keyError "columns") := by
  unfold to_json
  cases hn : g.nodes with
  | nil => exact absurd hn hne
  | cons nd rest =>
    have hlook : dlookup nd.2.parameters "columns" = Option.none :=
      hcols nd (by rw [hn]; exact List.mem_cons_self ..)
    have hconv : convert_from_internal_parameters nd.2.parameters =
        .error (.keyError "columns") := by
      unfold convert_from_internal_parameters pyDictGet
      rw [hlook]
      rfl
    rw [List.mapM_cons]
    simp only [hconv, errorBind]

theorem execute_node_spec {t node_id : String} {ps : List (String × PyVal)}
    {req : List String} (hreg : get_operation_function t = .ok req) :
    (req.filter (fun q => !(hasKey ps q)) ≠ [] →
      execute_node ⟨t, ps⟩ node_id =
        .error (.missingParameters node_id t (req.filter (fun q => !(hasKey ps q))))) ∧
    (req.filter (fun q => !(hasKey ps q)) = [] →
      execute_node ⟨t, ps⟩ node_id = runOperation t ps) := by
  constructor
  · intro h
    have hcond : (!(req.filter (fun q => !(hasKey ps q))).isEmpty) = true := by
      cases hemp : (req.filter (fun q => !(hasKey ps q))).isEmpty with
      | false => rfl
      | true => exact absurd (List.isEmpty_iff.mp hemp) h
    unfold execute_node
    simp only [hreg, hcond, if_true]
  · intro h
    have hcond : (!(req.filter (fun q => !(hasKey ps q))).isEmpty) = false := by
      rw [h]
      rfl
    unfold execute_node
    simp only [hreg, hcond, Bool.false_eq_true, if_false]

/-! The claim theorems (with their witnesses where the statement carries
hypotheses). -/

/-- C2: for every graph accepted by the store and every pair of existing
nodes, an edge insertion that would create a cycle fails with the cycle
ValueError and leaves the graph (node set and edge set) exactly as it was. -/
theorem c2_add_edge_cycle_atomic {g : Graph} {s t : String} (hb : Built g)
    (hs : s ∈ nodeIds g) (ht : t ∈ nodeIds g)
    (hcyc : hasCycle (insertEdge g s t) = true) :
    add_edge g s t = (.error .cycleError, g) := by
  obtain ⟨⟨_, _, _, hac⟩, _⟩ := built_invariant hb
  exact add_edge_cycle (hasNode_iff.mpr hs) (hasNode_iff.mpr ht) hac hcyc

/-- Witness for C2, on the spec's own scenario: nodes A (kind ADD) and
B (kind SMA) with edge A -> B; adding B -> A fails with the cycle error and
the graph still holds exactly the edge A -> B. -/
theorem c2_add_edge_cycle_atomic_witness :
    add_edge
      ⟨[("A", ⟨"ADD", [("sources", PyVal.list []), ("value", PyVal.int 1)]⟩),
        ("B", ⟨"SMA", [("sources", PyVal.list [])]⟩)], [("A", "B")]⟩ "B" "A" =
      (.error .cycleError,
       ⟨[("A", ⟨"ADD", [("sources", PyVal.list []), ("value", PyVal.int 1)]⟩),
         ("B", ⟨"SMA", [("sources", PyVal.list [])]⟩)], [("A", "B")]⟩) := by
  refine c2_add_edge_cycle_atomic ?_ (by decide) (by decide) (by rfl)
  exact Built.addEdge
    (Built.addNode
      (Built.addNode Built.empty
        (show add_node Graph.empty "A" "ADD"
            (.list [.dict [("value", .int 1)]]) = _ from rfl))
      (show add_node
          ⟨[("A", ⟨"ADD", [("sources", PyVal.list []), ("value", PyVal.int 1)]⟩)],
           []⟩ "B" "SMA" (.list []) = _ from rfl))
    (show add_edge
        ⟨[("A", ⟨"ADD", [("sources", PyVal.list []), ("value", PyVal.int 1)]⟩),
          ("B", ⟨"SMA", [("sources", PyVal.list [])]⟩)], []⟩ "A" "B" = _ from rfl)

/-- C3: the claim (and the spec scenario) say that adding node C of kind ADD
with parameters [column x, value 5] succeeds and exports back; the code
instead raises KeyError('columns') inside the parameter conversion (the
initializer writes "sources" but the column branch appends to "columns"), so
the add fails and the node is not stored. -/
theorem c3_add_column_param_raises_keyerror :
    add_node Graph.empty "C" "ADD"
      (.list [.dict [("column", .str "x")], .dict [("value", .int 5)]]) =
      (.error (.keyError "columns"), Graph.empty) := rfl

/-- C4: the claim says a parameter list lacking required names is rejected at
add time with a missing-parameter error; the code adds the node without any
such check (node n of kind SMA with empty parameters, although SMA requires
window_size and column, is stored successfully), and the missing names are
only reported at execution time, in registry order. -/
theorem c4_missing_required_params_still_added :
    add_node Graph.empty "n" "SMA" (.list []) =
      (.ok (), ⟨[("n", ⟨"SMA", [("sources", PyVal.list [])]⟩)], []⟩) ∧
    execute_node ⟨"SMA", [("sources", PyVal.list [])]⟩ "n" =
      .error (.missingParameters "n" "SMA" ["window_size", "column"]) :=
  ⟨rfl, rfl⟩

/-- C5: on an acyclic graph, add_edge fails with the node-not-found ValueError
when an endpoint is missing; with both endpoints present it fails with the
cycle ValueError exactly when a directed path from target to source already
exists (leaving the graph unchanged), and otherwise succeeds adding exactly
the edge (source, target). -/
theorem c5_add_edge_spec (g : Graph) (s t : String)
    (hac : hasCycle g = false) :
    ((hasNode g s = false ∨ hasNode g t = false) →
        add_edge g s t = (.error .nodeNotFound, g)) ∧
    (hasNode g s = true → hasNode g t = true →
      (((add_edge g s t).1 = .error .cycleError) ↔ Reach g t s) ∧
      (Reach g t s → add_edge g s t = (.error .cycleError, g)) ∧
      (¬ Reach g t s →
        add_edge g s t = (.ok (), insertEdge g s t) ∧
        (insertEdge g s t).nodes = g.nodes ∧
        ∀ e, e ∈ (insertEdge g s t).edges ↔ (e ∈ g.edges ∨ e = (s, t)))) := by
  refine ⟨add_edge_not_found, ?_⟩
  intro hs ht
  by_cases hr : Reach g t s
  · have hcyc : hasCycle (insertEdge g s t) = true :=
      (hasCycle_insert_iff hac).mpr hr
    have heq := add_edge_cycle hs ht hac hcyc
    refine ⟨⟨fun _ => hr, fun _ => by rw [heq]⟩, fun _ => heq, fun hnr => absurd hr hnr⟩
  · have hcyc : hasCycle (insertEdge g s t) = false := by
      cases hc : hasCycle (insertEdge g s t) with
      | false => rfl
      | true => exact absurd ((hasCycle_insert_iff hac).mp hc) hr
    have heq := add_edge_success hs ht hcyc
    refine ⟨⟨?_, fun h => absurd h hr⟩, fun h => absurd h hr, ?_⟩
    · intro h1
      rw [heq] at h1
      exact absurd h1 (by simp)
    · intro _
      exact ⟨heq, nodes_insertEdge g s t, fun e => mem_edges_insertEdge⟩

/-- Witness for C5, on the two-node graph with edge A -> B: a missing endpoint
fails with the node-not-found error, and adding B -> A fails with the cycle
error leaving the graph unchanged. -/
theorem c5_add_edge_spec_witness :
    add_edge
      ⟨[("A", ⟨"ADD", [("sources", PyVal.list []), ("value", PyVal.int 1)]⟩),
        ("B", ⟨"SMA", [("sources", PyVal.list [])]⟩)], [("A", "B")]⟩ "X" "B" =
      (.error .nodeNotFound,
       ⟨[("A", ⟨"ADD", [("sources", PyVal.list []), ("value", PyVal.int 1)]⟩),
         ("B", ⟨"SMA", [("sources", PyVal.list [])]⟩)], [("A", "B")]⟩) ∧
    add_edge
      ⟨[("A", ⟨"ADD", [("sources", PyVal.list []), ("value", PyVal.int 1)]⟩),
        ("B", ⟨"SMA", [("sources", PyVal.list [])]⟩)], [("A", "B")]⟩ "B" "A" =
      (.error .cycleError,
       ⟨[("A", ⟨"ADD", [("sources", PyVal.list []), ("value", PyVal.int 1)]⟩),
         ("B", ⟨"SMA", [("sources", PyVal.list [])]⟩)], [("A", "B")]⟩) := by
  constructor
  · exact (c5_add_edge_spec _ "X" "B" (by rfl)).1 (Or.inl (by rfl))
  · exact ((c5_add_edge_spec _ "B" "A" (by rfl)).2 (by rfl) (by rfl)).2.1
      (reaches_iff.mp (by rfl))

/-- C6: the claim says Load(Save(G)) reproduces every buildable graph with no
error; Save (to_json) instead raises KeyError('columns') for every graph with
at least one stored node, here the graph produced by
add_node("A", "SMA", []), so the round trip never completes. -/
theorem c6_round_trip_raises :
    roundTrip ⟨[("A", ⟨"SMA", [("sources", PyVal.list [])]⟩)], []⟩ =
      .error (.keyError "columns") := rfl

/-- C8: every failing add_node call is atomic: the graph it returns with is
the input graph, whatever the error; in particular an unregistered kind fails
with the wrapped unsupported-node-type ValueError and adds nothing. -/
theorem c8_add_node_atomic (g : Graph) (i t : String) (p : PyVal) :
    (∀ e : PyErr, (add_node g i t p).1 = .error e → (add_node g i t p).2 = g) ∧
    (∀ e : PyErr, get_operation_function t = .error e →
      add_node g i t p = (.error (.unsupportedNodeTypeWrapped t), g)) :=
  ⟨fun _ h => add_node_error_no_change h, fun _ h => add_node_unregistered h⟩

/-- Witness for C8: adding a node of unregistered kind NOPE fails and leaves
the empty graph empty. -/
theorem c8_add_node_atomic_witness :
    (add_node Graph.empty "X" "NOPE" (.list [])).2 = Graph.empty ∧
    add_node Graph.empty "X" "NOPE" (.list []) =
      (.error (.unsupportedNodeTypeWrapped "NOPE"), Graph.empty) :=
  ⟨(c8_add_node_atomic Graph.empty "X" "NOPE" (.list [])).1
      (.unsupportedNodeTypeWrapped "NOPE") rfl,
   (c8_add_node_atomic Graph.empty "X" "NOPE" (.list [])).2
      (.unsupportedNodeType "NOPE") rfl⟩

/-- C9: for every graph built through the mutation API that holds at least
one node, to_json raises KeyError('columns') instead of returning a document,
because every successfully stored internal parameter dict lacks the "columns"
key that the export conversion unconditionally subscripts. -/
theorem c9_to_json_raises {g : Graph} (hb : Built g) (hne : g.nodes ≠ []) :
    to_json g = .error (.keyError "columns") ∧
    ∀ nd ∈ g.nodes, dlookup nd.2.parameters "columns" = Option.none := by
  obtain ⟨_, hcols⟩ := built_invariant hb
  exact ⟨to_json_error hcols hne, hcols⟩

/-- Witness for C9: the one-node graph produced by add_node("A", "SMA", []). -/
theorem c9_to_json_raises_witness :
    to_json ⟨[("A", ⟨"SMA", [("sources", PyVal.list [])]⟩)], []⟩ =
      .error (.keyError "columns") :=
  (c9_to_json_raises
    (Built.addNode Built.empty
      (show add_node Graph.empty "A" "SMA" (.list []) = _ from rfl))
    (List.cons_ne_nil _ _)).1

/-- C10: construction-time validation accepts every parameter value of any
shape for every node kind other than ADD, and required-parameter presence is
checked only at execution time, where execute_node reports exactly the absent
required names in the registry's order. -/
theorem c10_non_add_validation_trivial :
    (∀ (t : String) (params : PyVal), t ≠ "ADD" →
      validate_parameters t params = true) ∧
    (∀ (node_id t : String) (ps : List (String × PyVal)) (req : List String),
      get_operation_function t = .ok req →
      ((req.filter (fun q => !(hasKey ps q)) ≠ [] →
          execute_node ⟨t, ps⟩ node_id =
            .error (.missingParameters node_id t
              (req.filter (fun q => !(hasKey ps q))))) ∧
       (req.filter (fun q => !(hasKey ps q)) = [] →
          execute_node ⟨t, ps⟩ node_id = runOperation t ps))) := by
  constructor
  · intro t params h
    unfold validate_parameters
    rw [if_neg]
    simp only [beq_iff_eq]
    exact h
  · intro node_id t ps req hreg
    exact execute_node_spec hreg

/-- Witness for C10: SMA and ADX validation accept arbitrary shapes, and a
stored SMA node's parameters are reported missing window_size and column only
when executed. -/
theorem c10_non_add_validation_trivial_witness :
    validate_parameters "SMA" (.int 7) = true ∧
    validate_parameters "ADX" (.str "nope") = true ∧
    execute_node ⟨"SMA", [("sources", PyVal.list [])]⟩ "k" =
      .error (.missingParameters "k" "SMA" ["window_size", "column"]) := by
  refine ⟨c10_non_add_validation_trivial.1 "SMA" (.int 7) (by decide),
    c10_non_add_validation_trivial.1 "ADX" (.str "nope") (by decide), ?_⟩
  exact (c10_non_add_validation_trivial.2 "k" "SMA" [("sources", PyVal.list [])]
    ["window_size", "column"] rfl).1 (by decide)

/-! Lemmas for the Kahn loop of `resolve_dependencies`. -/

theorem mem_successorsOf {g : Graph} {u v : String} :
    v ∈ successorsOf g u ↔ (u, v) ∈ g.edges := by
  unfold successorsOf
  constructor
  · intro h
    obtain ⟨e, he, rfl⟩ := List.mem_map.mp h
    obtain ⟨hmem, hfst⟩ := List.mem_filter.mp he
    have : e.1 = u := by simpa using hfst
    have he' : e = (u, e.2) := by rw [← this]
    rw [← he']
    exact hmem
  · intro h
    exact List.mem_map.mpr ⟨(u, v), List.mem_filter.mpr ⟨h, by simp⟩, rfl⟩

theorem successorsOf_nodup {g : Graph} (hed : g.edges.Nodup) (u : String) :
    (successorsOf g u).Nodup := by
  unfold successorsOf
  refine List.Nodup.map_on ?_ (List.Nodup.filter _ hed)
  intro x hx y hy hxy
  obtain ⟨_, hx1⟩ := List.mem_filter.mp hx
  obtain ⟨_, hy1⟩ := List.mem_filter.mp hy
  have hx1' : x.1 = u := by simpa using hx1
  have hy1' : y.1 = u := by simpa using hy1
  exact Prod.ext (hx1'.trans hy1'.symm) hxy

theorem contains_append_singleton {l : List String} {a x : String} :
    (l ++ [a]).contains x = (l.contains x || x == a) := by
  rw [Bool.eq_iff_iff]
  simp [Or.comm]

theorem unprocessed_zero_iff {g : Graph} {plan : List String} {v : String} :
    unprocessedInDeg g plan v = 0 ↔
      ∀ e ∈ g.edges, e.2 = v → e.1 ∈ plan := by
  unfold unprocessedInDeg
  rw [List.length_eq_zero, List.filter_eq_nil_iff]
  constructor
  · intro h e he hv
    have := h e he
    simp only [hv, beq_self_eq_true, Bool.true_and, Bool.not_eq_true',
      Bool.not_eq_false] at this
    simpa using this
  · intro h e he
    simp only [Bool.and_eq_true, beq_iff_eq, Bool.not_eq_true',
      Bool.not_eq_true, not_and]
    intro hv
    have := h e he hv
    simp [this]

theorem in_degree_eq_unprocessed_nil {g : Graph} (v : String) :
    in_degree g v = unprocessedInDeg g [] v := by
  unfold in_degree unprocessedInDeg
  congr 1
  apply List.filter_congr
  intro e _
  simp

theorem in_degree_zero_iff {g : Graph} {v : String} :
    in_degree g v = 0 ↔ ∀ e ∈ g.edges, ¬ e.2 = v := by
  rw [in_degree_eq_unprocessed_nil, unprocessed_zero_iff]
  constructor
  · intro h e he hv
    exact absurd (h e he hv) (List.not_mem_nil _)
  · intro h e he hv
    exact absurd hv (h e he)

theorem unprocessed_append (g : Graph) (plan : List String) (n : String)
    (hed : g.edges.Nodup) (hn : n ∉ plan) (v : String) :
    unprocessedInDeg g plan v =
      unprocessedInDeg g (plan ++ [n]) v +
        (if (n, v) ∈ g.edges then 1 else 0) := by
  unfold unprocessedInDeg
  have key : ∀ (es : List (String × String)), es.Nodup →
      (es.filter (fun e => e.2 == v && !(plan.contains e.1))).length =
        (es.filter (fun e => e.2 == v && !((plan ++ [n]).contains e.1))).length +
          (if (n, v) ∈ es then 1 else 0) := by
    intro es
    induction es with
    | nil => intro _; simp
    | cons e es ih =>
      intro hnd
      have hnd' := (List.nodup_cons.mp hnd).2
      have hnotmem := (List.nodup_cons.mp hnd).1
      by_cases hcase : e = (n, v)
      · subst hcase
        have hP : ((n, v).2 == v && !(plan.contains (n, v).1)) = true := by
          simp [hn]
        have hP' : ((n, v).2 == v && !((plan ++ [n]).contains (n, v).1)) = false := by
          simp [contains_append_singleton]
        rw [List.filter_cons, List.filter_cons, hP, hP']
        simp only [if_pos rfl, List.mem_cons, true_or, if_true,
          Bool.false_eq_true, if_false]
        rw [List.length_cons]
        have hrest : (if ((n, v) : String × String) ∈ es then 1 else 0) = 0 := by
          rw [if_neg hnotmem]
        have := ih hnd'
        rw [hrest] at this
        omega
      · have hPP : ((e.2 == v && !((plan ++ [n]).contains e.1))) =
            ((e.2 == v && !(plan.contains e.1))) := by
          rw [contains_append_singleton]
          by_cases h2 : e.2 = v
          · by_cases h1 : e.1 = n
            · exfalso
              exact hcase (Prod.ext h1 h2)
            · rw [beq_eq_false_iff_ne.mpr h1]
              simp
          · rw [beq_eq_false_iff_ne.mpr h2]
            simp
        rw [List.filter_cons, List.filter_cons, hPP]
        have hmemiff : (((n, v) : String × String) ∈ e :: es) ↔
            ((n, v) : String × String) ∈ es := by
          rw [List.mem_cons]
          constructor
          · rintro (h | h)
            · exact absurd h.symm hcase
            · exact h
          · exact Or.inr
        have := ih hnd'
        split <;> · simp only [List.length_cons, hmemiff]
                    omega
  exact key g.edges hed

theorem processList_spec :
    ∀ (L : List String) (ind : String → Int) (acc : List String), L.Nodup →
      (∀ v, (processList L ind acc).1 v = if v ∈ L then ind v - 1 else ind v) ∧
      (processList L ind acc).2 =
        acc ++ L.filter (fun x => (ind x - 1) == 0) := by
  intro L
  induction L with
  | nil =>
    intro ind acc _
    exact ⟨fun v => by simp [processList], by simp [processList]⟩
  | cons s L ih =>
    intro ind acc hnd
    obtain ⟨hs, hnd'⟩ := List.nodup_cons.mp hnd
    have hstep : processList (s :: L) ind acc =
        processList L (fun x => if x == s then ind s - 1 else ind x)
          (if ((ind s - 1) == 0) = true then acc ++ [s] else acc) := rfl
    set ind' := fun x => if x == s then ind s - 1 else ind x with hind'
    obtain ⟨ih1, ih2⟩ :=
      ih ind' (if ((ind s - 1) == 0) = true then acc ++ [s] else acc) hnd'
    constructor
    · intro v
      rw [hstep, ih1 v]
      by_cases hv : v ∈ s :: L
      · rcases List.mem_cons.mp hv with heq | hvL
        · subst heq
          rw [if_neg hs, if_pos hv]
          simp [hind']
        · have hne : v ≠ s := fun h => hs (h ▸ hvL)
          rw [if_pos hvL, if_pos hv]
          simp [hind', beq_eq_false_iff_ne.mpr hne, hne]
      · have hvL : v ∉ L := fun h => hv (List.mem_cons_of_mem _ h)
        have hne : v ≠ s := fun h => hv (h ▸ List.mem_cons_self ..)
        rw [if_neg hvL, if_neg hv]
        simp [hind', beq_eq_false_iff_ne.mpr hne, hne]
    · rw [hstep, ih2]
      have hfilter : L.filter (fun x => (ind' x - 1) == 0) =
          L.filter (fun x => (ind x - 1) == 0) := by
        apply List.filter_congr
        intro x hx
        have hne : x ≠ s := fun h => hs (h ▸ hx)
        simp [hind', beq_eq_false_iff_ne.mpr hne, hne]
      rw [hfilter, List.filter_cons]
      by_cases hc : ((ind s - 1) == 0) = true
      · rw [if_pos hc, if_pos hc, List.append_assoc, List.singleton_append]
      · rw [if_neg hc, if_neg hc]

theorem kahn_step {g : Graph} {n : String} {rest plan : List String}
    {indeg : String → Int} (hg : GoodGraph g)
    (inv : KahnInv g (n :: rest) plan indeg) :
    KahnInv g (rest ++ (processNode g n indeg).2) (plan ++ [n])
      (processNode g n indeg).1 := by
  obtain ⟨hnd_g, hed, hwf, hcyc⟩ := hg
  obtain ⟨hnd, hplan_sub, hqueue_sub, hindeg, hcov, hord⟩ := inv
  have hsu_nodup := successorsOf_nodup hed n
  obtain ⟨p1pre, p2⟩ := processList_spec (successorsOf g n) indeg [] hsu_nodup
  have p1 : ∀ v, (processNode g n indeg).1 v =
      if v ∈ successorsOf g n then indeg v - 1 else indeg v := p1pre
  have hnew : (processNode g n indeg).2 =
      (successorsOf g n).filter (fun x => (indeg x - 1) == 0) :=
    p2.trans (List.nil_append _)
  obtain ⟨hplan_nodup, hq_nodup, hdisj⟩ := List.nodup_append.mp hnd
  have hn_plan : n ∉ plan := fun h => hdisj h (List.mem_cons_self ..)
  obtain ⟨hn_rest, hrest_nodup⟩ := List.nodup_cons.mp hq_nodup
  have hcount_rel := fun v => unprocessed_append g plan n hed hn_plan v
  have hmem_new : ∀ v, v ∈ (processNode g n indeg).2 ↔
      ((n, v) ∈ g.edges ∧ unprocessedInDeg g plan v = 1) := by
    intro v
    rw [hnew, List.mem_filter, mem_successorsOf]
    have h2 := hindeg v
    constructor
    · rintro ⟨he, hcond⟩
      have h1 : indeg v - 1 = 0 := by simpa using hcond
      refine ⟨he, ?_⟩
      omega
    · rintro ⟨he, hcount⟩
      refine ⟨he, ?_⟩
      have h1 : indeg v - 1 = 0 := by omega
      simpa using h1
  have hfresh : ∀ v ∈ (processNode g n indeg).2,
      v ∈ nodeIds g ∧ v ∉ plan ∧ v ∉ (n :: rest) := by
    intro v hv
    obtain ⟨he, hcount⟩ := (hmem_new v).mp hv
    have hv_node : v ∈ nodeIds g := (hwf (n, v) he).2
    have hpos : 0 < unprocessedInDeg g plan v := by omega
    unfold unprocessedInDeg at hpos
    obtain ⟨e, hef⟩ := List.exists_mem_of_length_pos hpos
    obtain ⟨hee, hcond⟩ := List.mem_filter.mp hef
    have he2 : e.2 = v := by
      have := hcond
      simp only [Bool.and_eq_true, beq_iff_eq] at this
      exact this.1
    have he1 : e.1 ∉ plan := by
      have := hcond
      simp only [Bool.and_eq_true] at this
      simpa using this.2
    have hnot : ¬ (v ∈ plan ∨ v ∈ n :: rest) := by
      intro hmem
      exact he1 ((hcov v hv_node).mp hmem e hee he2)
    exact ⟨hv_node, fun h => hnot (Or.inl h), fun h => hnot (Or.inr h)⟩
  refine ⟨?_, ?_, ?_, ?_, ?_, ?_⟩
  · have heq : (plan ++ [n]) ++ (rest ++ (processNode g n indeg).2) =
        (plan ++ n :: rest) ++ (processNode g n indeg).2 := by
      simp
    rw [heq, List.nodup_append]
    refine ⟨hnd, ?_, ?_⟩
    · rw [hnew]
      exact List.Nodup.filter _ hsu_nodup
    · intro x hx hx'
      obtain ⟨_, hxp, hxq⟩ := hfresh x hx'
      rcases List.mem_append.mp hx with h | h
      · exact hxp h
      · exact hxq h
  · intro x hx
    rcases List.mem_append.mp hx with h | h
    · exact hplan_sub x h
    · simp only [List.mem_singleton] at h
      subst h
      exact hqueue_sub x (List.mem_cons_self ..)
  · intro x hx
    rcases List.mem_append.mp hx with h | h
    · exact hqueue_sub x (List.mem_cons_of_mem _ h)
    · exact (hfresh x h).1
  · intro v
    rw [p1 v]
    by_cases hv : v ∈ successorsOf g n
    · have he : (n, v) ∈ g.edges := mem_successorsOf.mp hv
      have hrel := hcount_rel v
      rw [if_pos he] at hrel
      have h2 := hindeg v
      rw [if_pos hv]
      omega
    · have he : (n, v) ∉ g.edges := fun h => hv (mem_successorsOf.mpr h)
      have hrel := hcount_rel v
      rw [if_neg he] at hrel
      have h2 := hindeg v
      rw [if_neg hv]
      omega
  · intro v hv_node
    constructor
    · intro hmem e he hv2
      rcases hmem with h | h
      · rcases List.mem_append.mp h with h' | h'
        · exact List.mem_append.mpr (Or.inl ((hcov v hv_node).mp (Or.inl h') e he hv2))
        · simp only [List.mem_singleton] at h'
          subst h'
          exact List.mem_append.mpr
            (Or.inl ((hcov v hv_node).mp (Or.inr (List.mem_cons_self ..)) e he hv2))
      · rcases List.mem_append.mp h with h' | h'
        · exact List.mem_append.mpr
            (Or.inl ((hcov v hv_node).mp (Or.inr (List.mem_cons_of_mem _ h')) e he hv2))
        · obtain ⟨hedge, hcount⟩ := (hmem_new v).mp h'
          have hrel := hcount_rel v
          rw [if_pos hedge] at hrel
          have hzero : unprocessedInDeg g (plan ++ [n]) v = 0 := by omega
          exact unprocessed_zero_iff.mp hzero e he hv2
    · intro hall
      by_cases hvp : v ∈ plan
      · exact Or.inl (List.mem_append.mpr (Or.inl hvp))
      · by_cases hvq : v ∈ n :: rest
        · rcases List.mem_cons.mp hvq with heq | hvr
          · subst heq
            exact Or.inl (List.mem_append.mpr (Or.inr (List.mem_singleton.mpr rfl)))
          · exact Or.inr (List.mem_append.mpr (Or.inl hvr))
        · have hnall : ¬ ∀ e ∈ g.edges, e.2 = v → e.1 ∈ plan := by
            intro h
            rcases (hcov v hv_node).mpr h with h' | h'
            · exact hvp h'
            · exact hvq h'
          push_neg at hnall
          obtain ⟨e, he, hv2, h1p⟩ := hnall
          have h1n : e.1 = n := by
            rcases List.mem_append.mp (hall e he hv2) with h' | h'
            · exact absurd h' h1p
            · simpa using h'
          have hedge : (n, v) ∈ g.edges := by
            have : e = (n, v) := Prod.ext h1n hv2
            exact this ▸ he
          have hzero : unprocessedInDeg g (plan ++ [n]) v = 0 :=
            unprocessed_zero_iff.mpr hall
          have hrel := hcount_rel v
          rw [if_pos hedge] at hrel
          have hone : unprocessedInDeg g plan v = 1 := by omega
          exact Or.inr (List.mem_append.mpr (Or.inr ((hmem_new v).mpr ⟨hedge, hone⟩)))
  · intro e he h2
    rcases List.mem_append.mp h2 with h2' | h2'
    · obtain ⟨h1, hlt⟩ := hord e he h2'
      refine ⟨List.mem_append.mpr (Or.inl h1), ?_⟩
      rw [List.indexOf_append_of_mem h1, List.indexOf_append_of_mem h2']
      exact hlt
    · simp only [List.mem_singleton] at h2'
      have h1 : e.1 ∈ plan :=
        (hcov n (hqueue_sub n (List.mem_cons_self ..))).mp
          (Or.inr (List.mem_cons_self ..)) e he h2'
      refine ⟨List.mem_append.mpr (Or.inl h1), ?_⟩
      rw [List.indexOf_append_of_mem h1, h2',
        List.indexOf_append_of_not_mem hn_plan, List.indexOf_cons_self]
      have := List.indexOf_lt_length.mpr h1
      omega

theorem kahnLoop_spec {g : Graph} (hg : GoodGraph g) :
    ∀ (fuel : Nat) (queue plan : List String) (indeg : String → Int),
      KahnInv g queue plan indeg →
      (nodeIds g).length ≤ fuel + plan.length →
      (kahnLoop g fuel queue indeg plan).Nodup ∧
      (∀ x ∈ kahnLoop g fuel queue indeg plan, x ∈ nodeIds g) ∧
      (∀ x ∈ nodeIds g, x ∈ kahnLoop g fuel queue indeg plan) ∧
      (∀ e ∈ g.edges, List.indexOf e.1 (kahnLoop g fuel queue indeg plan) <
        List.indexOf e.2 (kahnLoop g fuel queue indeg plan)) := by
  obtain ⟨hnd_g, hed, hwf, hcyc⟩ := hg
  intro fuel
  induction fuel with
  | zero =>
    intro queue plan indeg inv hbound
    have hplan_nodup : plan.Nodup := (List.nodup_append.mp inv.nodup).1
    have hsub : plan.toFinset ⊆ (nodeIds g).toFinset := fun x hx =>
      List.mem_toFinset.mpr (inv.plan_sub x (List.mem_toFinset.mp hx))
    have hcard : (nodeIds g).toFinset.card ≤ plan.toFinset.card := by
      rw [List.toFinset_card_of_nodup hplan_nodup,
        List.toFinset_card_of_nodup hnd_g]
      simpa using hbound
    have heqf : plan.toFinset = (nodeIds g).toFinset :=
      Finset.eq_of_subset_of_card_le hsub hcard
    have hmem_all : ∀ x ∈ nodeIds g, x ∈ plan := by
      intro x hx
      have : x ∈ plan.toFinset := by
        rw [heqf]
        exact List.mem_toFinset.mpr hx
      exact List.mem_toFinset.mp this
    refine ⟨hplan_nodup, inv.plan_sub, hmem_all, ?_⟩
    intro e he
    exact (inv.ordered e he (hmem_all _ (hwf e he).2)).2
  | succ fuel ih =>
    intro queue plan indeg inv hbound
    cases queue with
    | nil =>
      have hplan_nodup : plan.Nodup := (List.nodup_append.mp inv.nodup).1
      have hmem_all : ∀ x ∈ nodeIds g, x ∈ plan := by
        by_contra hcon
        push_neg at hcon
        obtain ⟨v0, hv0, hv0p⟩ := hcon
        have hv0S : v0 ∈ (nodeIds g).filter (fun x => !(plan.contains x)) :=
          List.mem_filter.mpr ⟨hv0, by simp [hv0p]⟩
        have hSne : (nodeIds g).filter (fun x => !(plan.contains x)) ≠ [] := by
          intro h
          rw [h] at hv0S
          exact absurd hv0S (List.not_mem_nil _)
        have hpred : ∀ v ∈ (nodeIds g).filter (fun x => !(plan.contains x)),
            ∃ u, u ∈ (nodeIds g).filter (fun x => !(plan.contains x)) ∧
              (u, v) ∈ g.edges := by
          intro v hvS
          obtain ⟨hv_node, hv_aux⟩ := List.mem_filter.mp hvS
          have hv_plan : v ∉ plan := by simpa using hv_aux
          have hnall : ¬ ∀ e ∈ g.edges, e.2 = v → e.1 ∈ plan := by
            intro h
            rcases (inv.covered v hv_node).mpr h with h' | h'
            · exact hv_plan h'
            · exact absurd h' (List.not_mem_nil _)
          push_neg at hnall
          obtain ⟨e, he, hv2, h1p⟩ := hnall
          refine ⟨e.1, List.mem_filter.mpr ⟨(hwf e he).1, by simp [h1p]⟩, ?_⟩
          have : e = (e.1, v) := Prod.ext rfl hv2
          exact this ▸ he
        have : hasCycle g = true :=
          hasCycle_of_preds g _ hSne hpred
        rw [this] at hcyc
        exact absurd hcyc (by simp)
      refine ⟨hplan_nodup, inv.plan_sub, hmem_all, ?_⟩
      intro e he
      exact (inv.ordered e he (hmem_all _ (hwf e he).2)).2
    | cons n rest =>
      have inv' := kahn_step ⟨hnd_g, hed, hwf, hcyc⟩ inv
      have hbound' : (nodeIds g).length ≤ fuel + (plan ++ [n]).length := by
        rw [List.length_append]
        simp only [List.length_singleton]
        omega
      exact ih _ _ _ inv' hbound'

theorem resolve_good {g : Graph} (hg : GoodGraph g) :
    ∃ plan, resolve_dependencies g = .ok plan ∧ plan.Nodup ∧
      (∀ x ∈ plan, x ∈ nodeIds g) ∧ (∀ x ∈ nodeIds g, x ∈ plan) ∧
      (∀ e ∈ g.edges, List.indexOf e.1 plan < List.indexOf e.2 plan) := by
  have hinit : KahnInv g ((nodeIds g).filter (fun v => in_degree g v == 0)) []
      (fun v => (in_degree g v : Int)) := by
    refine ⟨?_, ?_, ?_, ?_, ?_, ?_⟩
    · simpa using List.Nodup.filter _ hg.1
    · intro x hx
      exact absurd hx (List.not_mem_nil _)
    · intro x hx
      exact (List.mem_filter.mp hx).1
    · intro v
      rw [show in_degree g v = unprocessedInDeg g [] v from
        in_degree_eq_unprocessed_nil v]
    · intro v hv
      constructor
      · rintro (h | h)
        · exact absurd h (List.not_mem_nil _)
        · intro e he hv2
          exfalso
          have h0 : in_degree g v = 0 := by
            have := (List.mem_filter.mp h).2
            simpa using this
          exact (in_degree_zero_iff.mp h0) e he hv2
      · intro hall
        right
        refine List.mem_filter.mpr ⟨hv, ?_⟩
        have h0 : in_degree g v = 0 :=
          in_degree_zero_iff.mpr
            (fun e he hv2 => absurd (hall e he hv2) (List.not_mem_nil _))
        simp [h0]
    · intro e _ h2
      exact absurd h2 (List.not_mem_nil _)
  have hbound : (nodeIds g).length ≤
      (nodeIds g).length + ([] : List String).length := by simp
  obtain ⟨hnodup, hsub, hall, hord⟩ :=
    kahnLoop_spec hg (nodeIds g).length _ [] _ hinit hbound
  refine ⟨kahnLoop g (nodeIds g).length
    ((nodeIds g).filter (fun v => in_degree g v == 0))
    (fun v => (in_degree g v : Int)) [], ?_, hnodup, hsub, hall, hord⟩
  have hperm : (kahnLoop g (nodeIds g).length
      ((nodeIds g).filter (fun v => in_degree g v == 0))
      (fun v => (in_degree g v : Int)) []).Perm (nodeIds g) :=
    (List.perm_ext_iff_of_nodup hnodup hg.1).mpr (fun a => ⟨hsub a, hall a⟩)
  have hlen := hperm.length_eq
  have hded := List.dedup_eq_self.mpr hnodup
  unfold resolve_dependencies
  rw [if_neg]
  simp only [Bool.not_eq_true', Bool.not_eq_false]
  rw [hded]
  simp [hlen]

/-- C1: for every graph accepted by the graph store (built through its
mutation API, hence acyclic), the resolver succeeds and its plan respects
every edge: the position of each edge's source strictly precedes the position
of its target, and every node of the graph appears in the plan exactly once
(and nothing else appears). -/
theorem c1_resolver_respects_edges {g : Graph} (hb : Built g) :
    ∃ plan, resolve_dependencies g = .ok plan ∧
      (∀ e ∈ g.edges, List.indexOf e.1 plan < List.indexOf e.2 plan) ∧
      (∀ v ∈ nodeIds g, plan.count v = 1) ∧
      (∀ x ∈ plan, x ∈ nodeIds g) := by
  obtain ⟨hg, _⟩ := built_invariant hb
  obtain ⟨plan, hres, hnodup, hsub, hall, hord⟩ := resolve_good hg
  exact ⟨plan, hres, hord,
    fun v hv => List.count_eq_one_of_mem hnodup (hall v hv), hsub⟩

/-- Witness for C1: the two-node graph A -> B built through the API resolves,
and concretely its plan is [A, B]. -/
theorem c1_resolver_respects_edges_witness :
    (∃ plan,
      resolve_dependencies
        ⟨[("A", ⟨"ADD", [("sources", PyVal.list []), ("value", PyVal.int 1)]⟩),
          ("B", ⟨"SMA", [("sources", PyVal.list [])]⟩)], [("A", "B")]⟩ =
        .ok plan ∧
      (∀ e ∈ [(("A" : String), ("B" : String))],
        List.indexOf e.1 plan < List.indexOf e.2 plan) ∧
      (∀ v ∈ (["A", "B"] : List String), plan.count v = 1) ∧
      (∀ x ∈ plan, x ∈ (["A", "B"] : List String))) ∧
    resolve_dependencies
      ⟨[("A", ⟨"ADD", [("sources", PyVal.list []), ("value", PyVal.int 1)]⟩),
        ("B", ⟨"SMA", [("sources", PyVal.list [])]⟩)], [("A", "B")]⟩ =
      .ok ["A", "B"] := by
  constructor
  · exact c1_resolver_respects_edges
      (Built.addEdge
        (Built.addNode
          (Built.addNode Built.empty
            (show add_node Graph.empty "A" "ADD"
                (.list [.dict [("value", .int 1)]]) = _ from rfl))
          (show add_node
              ⟨[("A", ⟨"ADD",
                  [("sources", PyVal.list []), ("value", PyVal.int 1)]⟩)],
               []⟩ "B" "SMA" (.list []) = _ from rfl))
        (show add_edge
            ⟨[("A", ⟨"ADD",
                [("sources", PyVal.list []), ("value", PyVal.int 1)]⟩),
              ("B", ⟨"SMA", [("sources", PyVal.list [])]⟩)], []⟩ "A" "B" =
            _ from rfl))
  · rfl
